import Mathlib

/-!
Verification of the gitmproxy disk cache (cache.go, config.go) against its
specification.  The Go code is shallowly embedded: pure computations become
Lean functions, filesystem state becomes explicit lists of file entries, and
the concurrent singleflight protocol of `DiskCache.RoundTrip` becomes an
executable interleaving semantics (a step function over thread program
counters).  Machine `int64` values are modelled as `Int`; Go float64
arithmetic in the byte-size parser is modelled with exact rationals.  That
model coincides with the Go computation exactly when the decimal magnitude
is representable as a finite float64 and the product stays inside the
`int64` range (see `IsFloat64` and the discussion at `parseDecChars` and
`byteSizeUnmarshal`); every byte-size theorem below is confined to that
agreement domain.
-/

namespace Gitmproxy

/-! ## Byte-size parser (`ByteSize.UnmarshalText`, config.go)

The Go code does: trim space, upper-case, strip one of the suffixes
`GB`/`MB`/`KB`/`B` (checked in that order) remembering a multiplier,
`strconv.ParseFloat` the rest, then convert `num * float64(multiplier)`
to `int64` (a conversion that truncates toward zero).  There is no
negativity check anywhere. -/

def isSpaceChar (c : Char) : Bool :=
  c == ' ' || c == '\t' || c == '\n' || c == '\r'

/-- Model of `strings.TrimSpace`. -/
def trimChars (cs : List Char) : List Char :=
  ((cs.dropWhile isSpaceChar).reverse.dropWhile isSpaceChar).reverse

/-- Model of the suffix `switch` in `UnmarshalText` (Go `strings.HasSuffix`
plus `strings.TrimSuffix`, cases tried in source order `GB`, `MB`, `KB`,
`B`): returns the multiplier and the input with the recognised suffix
removed. -/
def splitUnit (cs : List Char) : Int × List Char :=
  match cs.reverse with
  | b :: g :: r =>
    if b = 'B' ∧ g = 'G' then (2 ^ 30, r.reverse)
    else if b = 'B' ∧ g = 'M' then (2 ^ 20, r.reverse)
    else if b = 'B' ∧ g = 'K' then (2 ^ 10, r.reverse)
    else if b = 'B' then (1, (g :: r).reverse)
    else (1, cs)
  | [b] => if b = 'B' then (1, []) else (1, cs)
  | [] => (1, cs)

def digitVal? (c : Char) : Option Nat :=
  if '0' ≤ c ∧ c ≤ '9' then some (c.toNat - 48) else none

def digitsValAux : Nat → List Char → Option Nat
  | acc, [] => some acc
  | acc, c :: cs =>
    match digitVal? c with
    | some d => digitsValAux (10 * acc + d) cs
    | none => none

def digitsVal? (cs : List Char) : Option Nat := digitsValAux 0 cs

/-- Leading sign of a float literal, as `strconv.ParseFloat` consumes it. -/
def parseSign : List Char → Bool × List Char
  | [] => (false, [])
  | c :: r =>
    if c = '-' then (true, r)
    else if c = '+' then (false, r)
    else (false, c :: r)

/-- Split at the first dot, if any. -/
def splitDot : List Char → List Char × Option (List Char)
  | [] => ([], none)
  | c :: cs =>
    if c = '.' then ([], some cs)
    else
      let p := splitDot cs
      (c :: p.1, p.2)

/-- Model of `strconv.ParseFloat` restricted to plain decimal literals
(optional sign, digits, optional single dot), returning the exact decimal
value as a rational.  The real `ParseFloat` returns the nearest float64
(correct rounding), so this exact model agrees with it precisely when the
decimal value is representable as a finite float64 (`IsFloat64`): correct
rounding of a representable value is the value itself.  On magnitudes
outside that set the two differ (for example seventeen-nines `0.99...9`
rounds to the float64 `1.0`), which is why every theorem below that speaks
about parsed values carries an `IsFloat64` hypothesis. -/
def parseDecChars (cs : List Char) : Option Rat :=
  let sp := parseSign cs
  let sgn : Rat := if sp.1 then -1 else 1
  match splitDot sp.2 with
  | (ip, none) =>
    match digitsVal? ip with
    | some a => if ip.isEmpty then none else some (sgn * (a : Rat))
    | none => none
  | (ip, some fp) =>
    match digitsVal? ip, digitsVal? fp with
    | some a, some b =>
      if ip.isEmpty && fp.isEmpty then none
      else some (sgn * (((a * 10 ^ fp.length + b : Nat) : Rat) / ((10 ^ fp.length : Nat) : Rat)))
    | _, _ => none

/-- Go's `int64(f)` conversion: truncation toward zero. -/
def truncInt (q : Rat) : Int :=
  if q < 0 then -⌊-q⌋ else ⌊q⌋

/-- Model of `ByteSize.UnmarshalText` (config.go lines 370-395).  The Go
code computes `int64(num * float64(multiplier))` in float64; here the
product is exact.  The two computations agree whenever the parsed magnitude
`q` is a finite float64 value (`IsFloat64 q`, under which `ParseFloat`
yields exactly `q`) and `|q * multiplier| < 2^63`: the multiplier is one of
1, 2^10, 2^20, 2^30, all exact as float64, scaling a float64 by a power of
two keeps the significand and is exact while the result stays finite
(guaranteed well below the 2^1024 overflow bound by the 2^63 range bound),
and Go's float-to-`int64` conversion is defined and truncates toward zero
for every float strictly inside the `int64` range.  The byte-size theorems
below assume exactly these two conditions. -/
def byteSizeUnmarshal (s : String) : Except String Int :=
  let cs := trimChars (s.data.map Char.toUpper)
  let mu := splitUnit cs
  match parseDecChars mu.2 with
  | none => Except.error "invalid syntax"
  | some q => Except.ok (truncInt (q * (mu.1 : Rat)))

/-! ### Abstract grammar of byte-size literals

Used to state the corrected behaviour of the parser over every input in the
claim's grammar: a decimal magnitude (optional sign, integer digits, dot,
fraction digits) followed by an optional unit suffix. -/

/-- Character of a decimal digit. -/
def digitChar (d : Nat) : Char := Char.ofNat (48 + d)

/-- Unit suffix of a byte-size literal. -/
inductive SizeUnit where
  | unitless
  | b
  | kb
  | mb
  | gb
deriving DecidableEq, Repr

def SizeUnit.chars : SizeUnit → List Char
  | .unitless => []
  | .b => ['B']
  | .kb => ['K', 'B']
  | .mb => ['M', 'B']
  | .gb => ['G', 'B']

def SizeUnit.mult : SizeUnit → Int
  | .unitless => 1
  | .b => 1
  | .kb => 2 ^ 10
  | .mb => 2 ^ 20
  | .gb => 2 ^ 30

/-- Characters of a signed fractional decimal magnitude `[-]ip.fp`. -/
def renderMagnitude (neg : Bool) (ip fp : List Nat) : List Char :=
  (if neg then ['-'] else []) ++ ip.map digitChar ++ '.' :: fp.map digitChar

/-- A complete byte-size literal as a string. -/
def renderInput (neg : Bool) (ip fp : List Nat) (u : SizeUnit) : String :=
  String.mk (renderMagnitude neg ip fp ++ u.chars)

/-- Value of a digit string. -/
def digitsToNat (ds : List Nat) : Nat := ds.foldl (fun a d => 10 * a + d) 0

/-- Exact rational value of the magnitude `[-]ip.fp`. -/
def magnitudeRat (neg : Bool) (ip fp : List Nat) : Rat :=
  (if neg then (-1 : Rat) else 1) *
    ((digitsToNat (ip ++ fp) : Rat) / ((10 ^ fp.length : Nat) : Rat))

/-- The rational is exactly representable as a finite IEEE-754 float64: an
integer significand of magnitude below 2^53 scaled by a power of two, with
the exponent at least -1074 (covering subnormals) and at most 971 (so the
value is below 2^1024).  On such magnitudes Go's `strconv.ParseFloat`
(which rounds correctly to the nearest float64) returns the exact value,
making the exact-rational parser model faithful. -/
def IsFloat64 (q : Rat) : Prop :=
  ∃ m e : Int, |m| < 2 ^ 53 ∧ -1074 ≤ e ∧ e ≤ 971 ∧ q = (m : Rat) * (2 : Rat) ^ e

/-! ## Size accounting (`addSize` / `subSize`, cache.go lines 156-170) -/

/-- Model of `DiskCache.addSize`: adds only when a quota is configured. -/
def addSizeModel (maxSize curr sz : Int) : Int :=
  if 0 < maxSize then curr + sz else curr

/-- Model of `DiskCache.subSize`: subtracts and clamps below zero to zero,
only when a quota is configured. -/
def subSizeModel (maxSize curr sz : Int) : Int :=
  if 0 < maxSize then
    if curr - sz < 0 then 0 else curr - sz
  else curr

/-- One atomic update of `currSize`: an `addSize` from `Set` or the startup
sweep, or a `subSize` from the eviction loop. -/
inductive SizeOp where
  | add (sz : Int)
  | sub (sz : Int)
deriving DecidableEq, Repr

def SizeOp.amount : SizeOp → Int
  | .add sz => sz
  | .sub sz => sz

def applySizeOp (maxSize curr : Int) : SizeOp → Int
  | .add sz => addSizeModel maxSize curr sz
  | .sub sz => subSizeModel maxSize curr sz

def runSizeOps (maxSize : Int) : Int → List SizeOp → Int
  | curr, [] => curr
  | curr, op :: ops => runSizeOps maxSize (applySizeOp maxSize curr op) ops

/-! ## Filesystem model -/

/-- One entry delivered by `filepath.Walk`: `errored` means the walk callback
received a non-nil error for this entry. -/
structure WalkEntry where
  path : String
  size : Int
  atime : Int
  isDir : Bool
  errored : Bool
deriving DecidableEq, Repr

/-! ## Startup sweep (`NewDiskCache`, cache.go lines 39-67)

The walk callback is `if err != nil { panic(err) }`, then for non-directory
entries it removes `.tmp` files and adds the size of every other file to
`currSize`.  A walk error therefore panics; it is not ignored. -/

/-- Model of the startup walk: returns the surviving entries and the summed
size, or an error representing the `panic(err)` in the callback. -/
def startupSweep : List WalkEntry → Except String (List WalkEntry × Int)
  | [] => Except.ok ([], 0)
  | e :: es =>
    if e.errored then Except.error "panic: walk error"
    else
      match startupSweep es with
      | Except.error m => Except.error m
      | Except.ok (kept, total) =>
        if e.isDir then Except.ok (e :: kept, total)
        else if e.path.endsWith ".tmp" then Except.ok (kept, total)
        else Except.ok (e :: kept, total + e.size)

/-- Size contributed by an entry to the startup sum. -/
def nonTmpFileSize (e : WalkEntry) : Int :=
  if e.isDir then 0 else if e.path.endsWith ".tmp" then 0 else e.size

/-! ## Eviction (`evictOne`, cache.go lines 175-217)

The walk skips entries with an error and directories, keeps the entry with
the strictly oldest atime (`atime.Before(oldestAtime)`, so an earlier entry
wins ties), removes it and returns its size.  In this filesystem model
`os.Remove` succeeds, so the error component is always `none`. -/

def isEvictCandidate (e : WalkEntry) : Bool := !e.errored && !e.isDir

def selectOldestAux : Option WalkEntry → List WalkEntry → Option WalkEntry
  | best, [] => best
  | best, e :: es =>
    if isEvictCandidate e then
      match best with
      | none => selectOldestAux (some e) es
      | some o =>
        if e.atime < o.atime then selectOldestAux (some e) es
        else selectOldestAux (some o) es
    else selectOldestAux best es

def selectOldest (es : List WalkEntry) : Option WalkEntry := selectOldestAux none es

/-- Model of `DiskCache.evictOne`: result is `((evicted, freed, error), files
after removal)`. -/
def evictOneModel (es : List WalkEntry) : (Bool × Int × Option String) × List WalkEntry :=
  match selectOldest es with
  | none => ((false, 0, none), es)
  | some o => ((true, o.size, none), es.erase o)

/-! ## Set (`DiskCache.Set`, cache.go lines 113-153) -/

/-- Cache directory contents together with the tracked `currSize`. -/
structure CState where
  files : List WalkEntry
  currSize : Int
deriving DecidableEq, Repr

/-- A freshly written regular file. -/
def fileNamed (p : String) (sz t : Int) : WalkEntry := ⟨p, sz, t, false, false⟩

/-- The quota loop of `Set`: while `currSize + size > maxSize`, evict the
oldest file and `subSize` the freed bytes; stop when nothing is evicted.
Fuel bounds the iteration count (every successful eviction removes a file,
so `files.length + 1` fuel is enough to reach the exhausted case). -/
def setEvictLoop (maxSize size : Int) : Nat → CState → CState
  | 0, st => st
  | fuel + 1, st =>
    if st.currSize + size > maxSize then
      match evictOneModel st.files with
      | ((true, freed, _), fs) =>
        setEvictLoop maxSize size fuel ⟨fs, subSizeModel maxSize st.currSize freed⟩
      | ((false, _, _), _) => st
    else st

/-- Model of `DiskCache.Set` for a request with cache path `p` whose
serialized response occupies `sz` bytes: write `p + ".tmp"`, run the quota
loop when `maxSize > 0`, rename the temp file over `p` (replacing any
previous entry), then `addSize sz`.  `t` is the atime given to the new
file.  If the quota loop evicted the temp file itself, the rename fails and
`currSize` is left unchanged. -/
def setModel (maxSize : Int) (p : String) (sz t : Int) (st : CState) : CState :=
  let tmpP := p ++ ".tmp"
  let afterWrite : CState := ⟨st.files ++ [fileNamed tmpP sz t], st.currSize⟩
  let afterEvict :=
    if 0 < maxSize then setEvictLoop maxSize sz (afterWrite.files.length + 1) afterWrite
    else afterWrite
  if afterEvict.files.any (fun f => f.path == tmpP) then
    ⟨(afterEvict.files.filter (fun f => f.path != tmpP && f.path != p)) ++ [fileNamed p sz t],
      addSizeModel maxSize afterEvict.currSize sz⟩
  else afterEvict

/-! ## Get (`DiskCache.Get`, cache.go lines 85-109)

`os.Stat` failure (absent file or any other stat error) returns
`(nil, info, nil)` with a nil `info`; an open failure returns
`(nil, info, nil)`; a parse failure of `http.ReadResponse` returns
`(nil, info, err)` - an error, not a miss. -/

inductive StatResult where
  | absent
  | statFailed
  | present (size : Int)
deriving DecidableEq, Repr

/-- The filesystem outcomes `Get` can run into for one path. -/
structure GetEnv where
  stat : StatResult
  openOk : Bool
  parseOk : Bool
deriving DecidableEq, Repr

/-- Return value of `Get`: `miss i` is `(nil response, i, nil error)`,
`failed i` is `(nil response, i, parse error)`, `hit sz` is a parsed
response with metadata of size `sz`. -/
inductive GetOutcome where
  | miss (info : Option Int)
  | failed (info : Option Int)
  | hit (size : Int)
deriving DecidableEq, Repr

/-- Model of `DiskCache.Get`. -/
def getModel (env : GetEnv) : GetOutcome :=
  match env.stat with
  | .absent => .miss none
  | .statFailed => .miss none
  | .present sz =>
    if !env.openOk then .miss (some sz)
    else if !env.parseOk then .failed (some sz)
    else .hit sz

/-! ## Download path (`doSingleflightDownload`, cache.go lines 222-298)

The model covers everything after a successful `transport.RoundTrip`:
the status gate, the cache-control gate, the 304 revalidation branch
(which calls `Get` and then logs `info.Size()` without a nil check),
and the 200 branch (size limit, `Set`, re-read `Get`, same logging). -/

inductive DlOutcome where
  | live
  | liveWithCCErr
  | cachedFromDisk
  | errorReturn (msg : String)
  | nilDerefPanic
deriving DecidableEq, Repr

structure DlEnv where
  status : Int
  contentLength : Int
  ignoreServerCacheControl : Bool
  ccAnalysisErr : Bool
  ccReasonCount : Nat
  entryMaxSize : Int
  setFails : Bool
  reread : GetEnv
  logging : Bool
deriving DecidableEq, Repr

/-- What happens after the re-read `Get` in either branch: a `Get` error is
propagated; otherwise, when logging is enabled, `info.Size()` is evaluated,
which panics when the metadata is nil. -/
def afterGetOutcome (g : GetOutcome) (logging : Bool) (setCalled : Bool) : DlOutcome × Bool :=
  match g with
  | .failed _ => (.errorReturn "failed to get cache entry", setCalled)
  | .miss none => if logging then (.nilDerefPanic, setCalled) else (.cachedFromDisk, setCalled)
  | .miss (some _) => (.cachedFromDisk, setCalled)
  | .hit _ => (.cachedFromDisk, setCalled)

/-- Model of `doSingleflightDownload` after a successful upstream round
trip.  The second component records whether `store.Set` was invoked. -/
def downloadModel (e : DlEnv) : DlOutcome × Bool :=
  if e.status ≠ 304 ∧ e.status ≠ 200 then (.live, false)
  else if e.ignoreServerCacheControl = false ∧ e.status ≠ 304 ∧ e.ccAnalysisErr = true then
    (.liveWithCCErr, false)
  else if e.ignoreServerCacheControl = false ∧ e.status ≠ 304 ∧ 0 < e.ccReasonCount then
    (.live, false)
  else if e.status = 304 then
    afterGetOutcome (getModel e.reread) e.logging false
  else if 0 < e.entryMaxSize ∧ e.entryMaxSize < e.contentLength ∧ 0 ≤ e.contentLength then
    (.live, false)
  else if e.setFails then (.errorReturn "cache set error", true)
  else afterGetOutcome (getModel e.reread) e.logging true

/-- The cache-control gate lets the response through. -/
def ccPasses (e : DlEnv) : Prop :=
  e.ignoreServerCacheControl = true ∨ (e.ccAnalysisErr = false ∧ e.ccReasonCount = 0)

/-! ## Singleflight (`DiskCache.RoundTrip`, cache.go lines 302-355)

Interleaving semantics for N concurrent GETs of one uncached URL.  Each
thread runs the loop of `RoundTrip`: `lookup` performs `Get` and either
finishes (hit) or proceeds; `claim` atomically (under `downloadMu`) either
registers the thread as the downloader or puts it to sleep on the existing
`WaitGroup`; the downloader then `fetch`es upstream, `store`s the entry and
`releaseSlot`s (the deferred block: delete from `inflight`, `wg.Done()`,
both under the mutex), which wakes every waiter back to the top of the
loop. -/

inductive ThreadPC where
  | start
  | tryClaim
  | downloading
  | writing
  | releasing
  | waiting
  | finished
deriving DecidableEq, Repr

structure SfState where
  pcs : List ThreadPC
  cacheFull : Bool
  inflight : Bool
  upstream : Nat
deriving DecidableEq, Repr

inductive SfAct where
  | lookup (t : Nat)
  | claim (t : Nat)
  | fetch (t : Nat)
  | store (t : Nat)
  | releaseSlot (t : Nat)
deriving DecidableEq, Repr

def wakeWaiter (p : ThreadPC) : ThreadPC := if p = .waiting then .start else p

def applyAct (s : SfState) (a : SfAct) : Option SfState :=
  match a with
  | .lookup t =>
    match s.pcs.get? t with
    | some .start =>
      if s.cacheFull then some { s with pcs := s.pcs.set t .finished }
      else some { s with pcs := s.pcs.set t .tryClaim }
    | _ => none
  | .claim t =>
    match s.pcs.get? t with
    | some .tryClaim =>
      if s.inflight then some { s with pcs := s.pcs.set t .waiting }
      else some { s with pcs := s.pcs.set t .downloading, inflight := true }
    | _ => none
  | .fetch t =>
    match s.pcs.get? t with
    | some .downloading =>
      some { s with pcs := s.pcs.set t .writing, upstream := s.upstream + 1 }
    | _ => none
  | .store t =>
    match s.pcs.get? t with
    | some .writing => some { s with pcs := s.pcs.set t .releasing, cacheFull := true }
    | _ => none
  | .releaseSlot t =>
    match s.pcs.get? t with
    | some .releasing =>
      some { s with pcs := (s.pcs.set t .finished).map wakeWaiter, inflight := false }
    | _ => none

def runActs : SfState → List SfAct → Option SfState
  | s, [] => some s
  | s, a :: as =>
    match applyAct s a with
    | some s1 => runActs s1 as
    | none => none

/-- N threads about to serve the same GET, empty cache, no inflight entry. -/
def initSf (n : Nat) : SfState := ⟨List.replicate n .start, false, false, 0⟩

/-- A thread is between a successful claim and the slot release, i.e. it
holds the inflight slot. -/
def inSection : ThreadPC → Bool
  | .downloading | .writing | .releasing => true
  | _ => false

/-- Protocol invariant: at most one slot holder, none when `inflight` is
false, waiters only exist while a download is inflight, and a thread about
to release has already written the entry. -/
def SfInv (s : SfState) : Prop :=
  (∀ i j pi pj, s.pcs.get? i = some pi → s.pcs.get? j = some pj →
    inSection pi = true → inSection pj = true → i = j) ∧
  (s.inflight = false → ∀ i p, s.pcs.get? i = some p → inSection p = false) ∧
  (∀ i, s.pcs.get? i = some .waiting → s.inflight = true) ∧
  (∀ i, s.pcs.get? i = some .releasing → s.cacheFull = true)

/-! ## Theorems -/

/-- C6, counterexample: a `Get` whose stat and open succeed but whose
`http.ReadResponse` parse fails returns `(nil, info, err)` - the parse error
is propagated to the caller, not converted into a clean miss as the claim
states (a clean miss would be `GetOutcome.miss` with no error). -/
theorem get_parse_error_counterexample :
    getModel ⟨StatResult.present 7, true, false⟩ = GetOutcome.failed (some 7) ∧
    getModel ⟨StatResult.present 7, true, false⟩ ≠ GetOutcome.miss none ∧
    getModel ⟨StatResult.present 7, true, false⟩ ≠ GetOutcome.miss (some 7) := by
  refine ⟨rfl, ?_, ?_⟩ <;> simp [getModel]

/-- C6, amended: absence of the entry file and any other stat failure are a
clean miss (nil response, nil metadata, nil error); an open failure is also
treated as a miss; but a parse failure on a would-be hit is returned to the
caller as an error (`GetOutcome.failed`), not treated as a miss. -/
theorem get_miss_amended (env : GetEnv) :
    (env.stat = StatResult.absent → getModel env = GetOutcome.miss none) ∧
    (env.stat = StatResult.statFailed → getModel env = GetOutcome.miss none) ∧
    (∀ sz, env.stat = StatResult.present sz → env.openOk = false →
      getModel env = GetOutcome.miss (some sz)) ∧
    (∀ sz, env.stat = StatResult.present sz → env.openOk = true → env.parseOk = false →
      getModel env = GetOutcome.failed (some sz)) := by
  refine ⟨?_, ?_, ?_, ?_⟩
  · intro h; simp [getModel, h]
  · intro h; simp [getModel, h]
  · intro sz h ho; simp [getModel, h, ho]
  · intro sz h ho hp; simp [getModel, h, ho, hp]

/-- C6, witness for the amended theorem at concrete environments. -/
theorem get_miss_amended_witness :
    getModel ⟨StatResult.absent, true, true⟩ = GetOutcome.miss none ∧
    getModel ⟨StatResult.present 3, false, true⟩ = GetOutcome.miss (some 3) :=
  ⟨(get_miss_amended ⟨StatResult.absent, true, true⟩).1 rfl,
   (get_miss_amended ⟨StatResult.present 3, false, true⟩).2.2.1 3 rfl rfl⟩

/-- C2, counterexample: a cacheable 200 response whose `store.Set` fails
makes `doSingleflightDownload` return `(nil, cache set error)`; the caller
does not receive the live upstream response (`DlOutcome.live`). -/
theorem set_failure_counterexample :
    downloadModel ⟨200, 50, true, false, 0, 100, true, ⟨StatResult.present 50, true, true⟩, false⟩
      = (DlOutcome.errorReturn "cache set error", true) ∧
    (downloadModel ⟨200, 50, true, false, 0, 100, true, ⟨StatResult.present 50, true, true⟩, false⟩).1
      ≠ DlOutcome.live := by
  refine ⟨rfl, ?_⟩
  simp [downloadModel]

/-- C2, amended: when the upstream fetch for a GET miss succeeds with a
cacheable 200 response but `store.Set` fails, the request fails: the body is
closed and an error wrapping the `Set` failure is returned; the live
response is not handed to the caller. -/
theorem set_failure_amended (e : DlEnv) (h200 : e.status = 200) (hcc : ccPasses e)
    (hsize : ¬(0 < e.entryMaxSize ∧ e.entryMaxSize < e.contentLength ∧ 0 ≤ e.contentLength))
    (hset : e.setFails = true) :
    downloadModel e = (DlOutcome.errorReturn "cache set error", true) := by
  rcases hcc with hcc | ⟨hccErr, hccR⟩
  · simp [downloadModel, h200, hcc, hsize, hset]
  · simp [downloadModel, h200, hccErr, hccR, hsize, hset]

/-- C2, witness for the amended theorem at a concrete environment. -/
theorem set_failure_amended_witness :
    downloadModel ⟨200, 50, false, false, 0, 100, true, ⟨StatResult.present 50, true, true⟩, true⟩
      = (DlOutcome.errorReturn "cache set error", true) :=
  set_failure_amended ⟨200, 50, false, false, 0, 100, true, ⟨StatResult.present 50, true, true⟩, true⟩
    rfl (Or.inr ⟨rfl, rfl⟩) (by norm_num) rfl

/-- C7, counterexample: a 200 response with no declared Content-Length
(`ContentLength = -1`) and a configured per-entry limit of 100 bytes is
passed to `store.Set` (second component `true`): the size gate only fires
for a declared non-negative length above the limit, so responses lacking a
determinate length are cached, contradicting the claim. -/
theorem unknown_length_cached_counterexample :
    downloadModel ⟨200, -1, true, false, 0, 100, false, ⟨StatResult.present 50, true, true⟩, false⟩
      = (DlOutcome.cachedFromDisk, true) := rfl

/-- C7, amended: in the 200 branch with the cache-control gate passed,
`store.Set` is invoked exactly when it is not the case that a positive
`EntryMaxSize` is configured and the response declares a non-negative
`Content-Length` exceeding it; in particular a response lacking a
determinate length (`ContentLength < 0`) is always passed to `store.Set`. -/
theorem unknown_length_amended (e : DlEnv) (h200 : e.status = 200) (hcc : ccPasses e) :
    (e.contentLength < 0 → (downloadModel e).2 = true) ∧
    ((downloadModel e).2 = true ↔
      ¬(0 < e.entryMaxSize ∧ e.entryMaxSize < e.contentLength ∧ 0 ≤ e.contentLength)) := by
  have hgate : ∀ setCalled g l, (afterGetOutcome g l setCalled).2 = setCalled := by
    intro setCalled g l
    match g with
    | .failed _ => rfl
    | .miss none => by_cases hl : l = true <;> simp [afterGetOutcome, hl]
    | .miss (some _) => rfl
    | .hit _ => rfl
  constructor
  · intro hneg
    have hsize : ¬(0 < e.entryMaxSize ∧ e.entryMaxSize < e.contentLength ∧ 0 ≤ e.contentLength) := by
      rintro ⟨-, -, h⟩; omega
    rcases hcc with hcc | ⟨hccErr, hccR⟩
    · by_cases hset : e.setFails = true <;> simp [downloadModel, h200, hcc, hsize, hset, hgate]
    · by_cases hset : e.setFails = true <;>
        simp [downloadModel, h200, hccErr, hccR, hsize, hset, hgate]
  · by_cases hsize : 0 < e.entryMaxSize ∧ e.entryMaxSize < e.contentLength ∧ 0 ≤ e.contentLength
    · rcases hcc with hcc | ⟨hccErr, hccR⟩
      · simp [downloadModel, h200, hcc, hsize, hgate]
      · simp [downloadModel, h200, hccErr, hccR, hsize, hgate]
    · rcases hcc with hcc | ⟨hccErr, hccR⟩
      · by_cases hset : e.setFails = true <;> simp [downloadModel, h200, hcc, hsize, hset, hgate]
      · by_cases hset : e.setFails = true <;>
          simp [downloadModel, h200, hccErr, hccR, hsize, hset, hgate]

/-- C7, witness for the amended theorem at a concrete environment. -/
theorem unknown_length_amended_witness :
    (downloadModel ⟨200, -1, true, false, 0, 100, false, ⟨StatResult.present 5, true, true⟩, false⟩).2
      = true :=
  (unknown_length_amended
    ⟨200, -1, true, false, 0, 100, false, ⟨StatResult.present 5, true, true⟩, false⟩
    rfl (Or.inl rfl)).1 (by norm_num)

/-- C10, confirmed: when the upstream answers 304 for a key with no entry
file on disk, `Get` returns nil metadata with no error, and the logging
statement of the 304 branch evaluates `info.Size()` on that nil `FileInfo`
without any guard, panicking; when an entry is present the branch is safe. -/
theorem nilderef_304 (e : DlEnv) (h304 : e.status = 304) :
    (∀ o p, getModel ⟨StatResult.absent, o, p⟩ = GetOutcome.miss none) ∧
    (e.reread.stat = StatResult.absent → e.logging = true →
      downloadModel e = (DlOutcome.nilDerefPanic, false)) ∧
    (∀ sz, e.reread.stat = StatResult.present sz →
      (downloadModel e).1 ≠ DlOutcome.nilDerefPanic) := by
  refine ⟨fun o p => rfl, ?_, ?_⟩
  · intro habs hlog
    simp [downloadModel, h304, getModel, habs, afterGetOutcome, hlog]
  · intro sz hpres
    have hget : getModel e.reread = GetOutcome.miss (some sz) ∨
        getModel e.reread = GetOutcome.failed (some sz) ∨
        getModel e.reread = GetOutcome.hit sz := by
      simp only [getModel, hpres]
      by_cases ho : e.reread.openOk <;> by_cases hp : e.reread.parseOk <;> simp [ho, hp]
    rcases hget with hg | hg | hg <;>
      by_cases hlog : e.logging = true <;>
        simp [downloadModel, h304, hg, afterGetOutcome, hlog]

/-- C10, witness at a concrete environment: absent entry plus logging
panics; present entry does not. -/
theorem nilderef_304_witness :
    downloadModel ⟨304, 0, false, false, 0, 100, false, ⟨StatResult.absent, true, true⟩, true⟩
      = (DlOutcome.nilDerefPanic, false) ∧
    (downloadModel ⟨304, 0, false, false, 0, 100, false, ⟨StatResult.present 9, true, true⟩, true⟩).1
      ≠ DlOutcome.nilDerefPanic :=
  ⟨(nilderef_304 ⟨304, 0, false, false, 0, 100, false, ⟨StatResult.absent, true, true⟩, true⟩
      rfl).2.1 rfl rfl,
   (nilderef_304 ⟨304, 0, false, false, 0, 100, false, ⟨StatResult.present 9, true, true⟩, true⟩
      rfl).2.2 9 rfl⟩

/-- Helper: a single `currSize` update keeps the counter non-negative, as
long as added amounts are non-negative (`subSize` clamps on its own). -/
theorem applySizeOp_nonneg (maxSize curr : Int) (op : SizeOp)
    (hc : 0 ≤ curr) (hop : 0 ≤ op.amount) : 0 ≤ applySizeOp maxSize curr op := by
  cases op with
  | add sz =>
    simp only [applySizeOp, addSizeModel, SizeOp.amount] at *
    by_cases h : 0 < maxSize <;> simp [h] <;> omega
  | sub sz =>
    simp only [applySizeOp, subSizeModel]
    by_cases h : 0 < maxSize
    · by_cases h2 : curr - sz < 0
      · simp [h, h2]
      · simp only [if_pos h, if_neg h2]
        omega
    · simpa [h] using hc

/-- Helper: `runSizeOps` keeps the counter non-negative. -/
theorem runSizeOps_nonneg (maxSize : Int) (ops : List SizeOp) (curr : Int)
    (hc : 0 ≤ curr) (hops : ∀ op ∈ ops, 0 ≤ op.amount) :
    0 ≤ runSizeOps maxSize curr ops := by
  induction ops generalizing curr with
  | nil => simpa [runSizeOps] using hc
  | cons op ops ih =>
    simp only [runSizeOps]
    exact ih _ (applySizeOp_nonneg _ _ _ hc (hops op (by simp)))
      (fun o ho => hops o (by simp [ho]))

/-- Helper: the startup sum is non-negative when all file sizes are. -/
theorem startupSweep_total_nonneg (es : List WalkEntry) (hsz : ∀ e ∈ es, 0 ≤ e.size)
    (kept : List WalkEntry) (total : Int) (h : startupSweep es = Except.ok (kept, total)) :
    0 ≤ total := by
  induction es generalizing kept total with
  | nil =>
    simp only [startupSweep, Except.ok.injEq, Prod.mk.injEq] at h
    obtain ⟨-, h2⟩ := h
    omega
  | cons e es ih =>
    simp only [startupSweep] at h
    by_cases herr : e.errored = true
    · simp [herr] at h
    · simp only [Bool.not_eq_true] at herr
      rw [herr] at h
      simp only [Bool.false_eq_true, if_false] at h
      cases hrec : startupSweep es with
      | error m => rw [hrec] at h; cases h
      | ok kt =>
        obtain ⟨k0, t0⟩ := kt
        rw [hrec] at h
        have ht0 : 0 ≤ t0 := ih (fun x hx => hsz x (by simp [hx])) k0 t0 hrec
        have hes : 0 ≤ e.size := hsz e (by simp)
        by_cases hdir : e.isDir = true
        · simp [hdir] at h; omega
        · by_cases htmp : e.path.endsWith ".tmp" = true
          · simp [hdir, htmp] at h; omega
          · simp [hdir, htmp] at h; omega

/-- C8, confirmed: `currSize` stays non-negative under any sequence of
`addSize` updates (from `Set` and the startup accounting) with non-negative
amounts and `subSize` updates (from eviction); `subSize` clamps negative
results to zero; and the startup sweep produces a non-negative total. -/
theorem currSize_nonneg (maxSize curr : Int) (ops : List SizeOp)
    (hc : 0 ≤ curr) (hops : ∀ op ∈ ops, 0 ≤ op.amount) :
    0 ≤ runSizeOps maxSize curr ops ∧
    (∀ c sz : Int, 0 < maxSize → c - sz < 0 → subSizeModel maxSize c sz = 0) ∧
    (∀ es : List WalkEntry, (∀ e ∈ es, 0 ≤ e.size) → ∀ kept total,
      startupSweep es = Except.ok (kept, total) → 0 ≤ total) := by
  refine ⟨runSizeOps_nonneg maxSize ops curr hc hops, ?_, ?_⟩
  · intro c sz h1 h2
    simp [subSizeModel, h1, h2]
  · intro es h kept total hok
    exact startupSweep_total_nonneg es h kept total hok

/-- C8, witness: a concrete run ending clamped at zero. -/
theorem currSize_nonneg_witness :
    0 ≤ runSizeOps 100 0 [SizeOp.add 5, SizeOp.sub 7] ∧
    (∀ c sz : Int, 0 < (100 : Int) → c - sz < 0 → subSizeModel 100 c sz = 0) ∧
    (∀ es : List WalkEntry, (∀ e ∈ es, 0 ≤ e.size) → ∀ kept total,
      startupSweep es = Except.ok (kept, total) → 0 ≤ total) :=
  currSize_nonneg 100 0 [SizeOp.add 5, SizeOp.sub 7] (le_refl 0)
    (by intro op hop; fin_cases hop <;> simp [SizeOp.amount])

/-- Helper: a `Set` that triggers no eviction (quota configured, enough
room) adds exactly the written size to `currSize`. -/
theorem setModel_steady_currSize (maxSize : Int) (p : String) (sz t : Int) (st : CState)
    (hmax : 0 < maxSize) (hroom : st.currSize + sz ≤ maxSize) :
    (setModel maxSize p sz t st).currSize = st.currSize + sz := by
  have hcond : ¬(st.currSize + sz > maxSize) := by omega
  simp only [setModel, if_pos hmax, setEvictLoop, if_neg hcond, List.any_append,
    List.any_cons, List.any_nil, fileNamed, beq_self_eq_true, Bool.or_true, if_pos,
    addSizeModel]
  simp [if_pos hmax]

/-- C1, counterexample: with a 1000-byte quota and an empty cache, two
successive `Set`s of the same 10-byte entry leave `currSize = 20`, not 10:
the second `Set` overwrites the file but adds its size to `currSize` again,
contradicting the claimed increment-exactly-once. -/
theorem set_twice_counterexample :
    (setModel 1000 "p" 10 1 (setModel 1000 "p" 10 0 ⟨[], 0⟩)).currSize = 20 ∧
    ¬(setModel 1000 "p" 10 1 (setModel 1000 "p" 10 0 ⟨[], 0⟩)).currSize = 10 := by
  have h20 : (setModel 1000 "p" 10 1 (setModel 1000 "p" 10 0 ⟨[], 0⟩)).currSize = 20 := rfl
  exact ⟨h20, by rw [h20]; norm_num⟩

/-- C1, amended: in steady state (quota configured and never exceeded, so
no eviction runs) two successive `Set(R, resp)` calls increment `currSize`
by size(resp) twice: each `Set` adds the written size unconditionally after
the rename, and the overwrite does not subtract the replaced entry's
size. -/
theorem set_twice_amended (maxSize : Int) (p : String) (sz t1 t2 : Int) (st : CState)
    (hmax : 0 < maxSize) (hsz : 0 ≤ sz) (hroom : st.currSize + sz + sz ≤ maxSize) :
    (setModel maxSize p sz t2 (setModel maxSize p sz t1 st)).currSize =
      st.currSize + 2 * sz := by
  have h1 : (setModel maxSize p sz t1 st).currSize = st.currSize + sz :=
    setModel_steady_currSize maxSize p sz t1 st hmax (by omega)
  have h2 : (setModel maxSize p sz t2 (setModel maxSize p sz t1 st)).currSize =
      (setModel maxSize p sz t1 st).currSize + sz :=
    setModel_steady_currSize maxSize p sz t2 _ hmax (by omega)
  rw [h2, h1]; ring

/-- C1, witness for the amended theorem at a concrete steady-state run. -/
theorem set_twice_amended_witness :
    (setModel 1000 "q" 10 3 (setModel 1000 "q" 10 2 ⟨[], 0⟩)).currSize =
      (⟨[], 0⟩ : CState).currSize + 2 * 10 :=
  set_twice_amended 1000 "q" 10 2 3 ⟨[], 0⟩ (by norm_num) (by norm_num)
    (by show (0 : Int) + 10 + 10 ≤ 1000; norm_num)

/-- C5, counterexample: a walk entry delivered with an error makes the
startup sweep panic (the callback runs `panic(err)`); the error is not
ignored, contradicting the claimed best-effort recovery. -/
theorem sweep_counterexample :
    startupSweep [⟨"a", 1, 0, false, true⟩] = Except.error "panic: walk error" := rfl

/-- C5, amended: on an error-free walk the startup sweep deletes every
regular file with a `.tmp` suffix (none survives), keeps the rest, and sums
the sizes of the surviving regular files into `currSize`; a walk error is
not ignored but panics, aborting construction. -/
theorem sweep_amended (es : List WalkEntry) (h : ∀ e ∈ es, e.errored = false) :
    ∃ kept, startupSweep es = Except.ok (kept, (es.map nonTmpFileSize).sum) ∧
      ∀ e ∈ kept, e.isDir = false → e.path.endsWith ".tmp" = false := by
  induction es with
  | nil => exact ⟨[], rfl, by simp⟩
  | cons e es ih =>
    obtain ⟨kept, hok, hkept⟩ := ih (fun x hx => h x (by simp [hx]))
    have herr : e.errored = false := h e (by simp)
    by_cases hdir : e.isDir = true
    · refine ⟨e :: kept, ?_, ?_⟩
      · simp [startupSweep, herr, hok, hdir, nonTmpFileSize]
      · intro x hx hxdir
        rcases List.mem_cons.mp hx with hx | hx
        · rw [hx] at hxdir; rw [hxdir] at hdir; cases hdir
        · exact hkept x hx hxdir
    · by_cases htmp : e.path.endsWith ".tmp" = true
      · refine ⟨kept, ?_, hkept⟩
        simp [startupSweep, herr, hok, hdir, htmp, nonTmpFileSize]
      · refine ⟨e :: kept, ?_, ?_⟩
        · simp only [startupSweep, herr, Bool.false_eq_true, if_false, hok,
            List.map_cons, List.sum_cons]
          simp only [hdir, htmp, Bool.false_eq_true, if_false, nonTmpFileSize,
            Except.ok.injEq, Prod.mk.injEq]
          exact ⟨by trivial, by omega⟩
        · intro x hx hxdir
          rcases List.mem_cons.mp hx with hx | hx
          · rw [hx]; simpa using htmp
          · exact hkept x hx hxdir

/-- C5, witness: the amended statement at a concrete error-free directory
tree containing a temp file. -/
theorem sweep_amended_witness :
    ∃ kept,
      startupSweep [⟨"d", 3, 0, true, false⟩, ⟨"x.tmp", 5, 0, false, false⟩,
          ⟨"y", 7, 0, false, false⟩] =
        Except.ok (kept,
          ([⟨"d", 3, 0, true, false⟩, ⟨"x.tmp", 5, 0, false, false⟩,
            (⟨"y", 7, 0, false, false⟩ : WalkEntry)].map nonTmpFileSize).sum) ∧
      ∀ e ∈ kept, e.isDir = false → e.path.endsWith ".tmp" = false :=
  sweep_amended _ (by intro e he; fin_cases he <;> rfl)

/-- Helper: the eviction scan ignores entries that are not candidates. -/
theorem selectOldestAux_skip (es : List WalkEntry)
    (h : ∀ e ∈ es, isEvictCandidate e = false) :
    ∀ best, selectOldestAux best es = best := by
  induction es with
  | nil => intro best; rfl
  | cons e es ih =>
    intro best
    have he : isEvictCandidate e = false := h e (by simp)
    simp only [selectOldestAux, he, Bool.false_eq_true, if_false]
    exact ih (fun x hx => h x (by simp [hx])) best

/-- Helper: if the scan returns nothing, there was no candidate. -/
theorem selectOldestAux_none (es : List WalkEntry) :
    ∀ best, selectOldestAux best es = none →
      best = none ∧ ∀ e ∈ es, isEvictCandidate e = false := by
  induction es with
  | nil =>
    intro best hb
    exact ⟨hb, by simp⟩
  | cons e es ih =>
    intro best hb
    by_cases hc : isEvictCandidate e = true
    · cases best with
      | none =>
        simp only [selectOldestAux, if_pos hc] at hb
        obtain ⟨habs, -⟩ := ih (some e) hb
        cases habs
      | some o =>
        simp only [selectOldestAux, if_pos hc] at hb
        by_cases hlt : e.atime < o.atime
        · rw [if_pos hlt] at hb
          obtain ⟨habs, -⟩ := ih (some e) hb
          cases habs
        · rw [if_neg hlt] at hb
          obtain ⟨habs, -⟩ := ih (some o) hb
          cases habs
    · simp only [selectOldestAux, hc, if_false] at hb
      obtain ⟨h1, h2⟩ := ih best hb
      refine ⟨h1, ?_⟩
      intro x hx
      rcases List.mem_cons.mp hx with hx | hx
      · rw [hx]; simpa using hc
      · exact h2 x hx

/-- Helper: the scan returns a candidate with minimal atime (or the seed,
when the seed already beats every candidate). -/
theorem selectOldestAux_min (es : List WalkEntry) :
    ∀ best r, selectOldestAux best es = some r →
      ((r ∈ es ∧ isEvictCandidate r = true) ∨ best = some r) ∧
      (∀ g ∈ es, isEvictCandidate g = true → r.atime ≤ g.atime) ∧
      (∀ o, best = some o → r.atime ≤ o.atime) := by
  induction es with
  | nil =>
    intro best r hb
    refine ⟨Or.inr hb, by simp, ?_⟩
    intro o ho
    rw [ho] at hb
    cases hb
    exact le_refl _
  | cons e es ih =>
    intro best r hb
    by_cases hc : isEvictCandidate e = true
    · cases best with
      | none =>
        simp only [selectOldestAux, if_pos hc] at hb
        obtain ⟨hmem, hmin, hseed⟩ := ih (some e) r hb
        have hre : r.atime ≤ e.atime := hseed e rfl
        refine ⟨?_, ?_, by simp⟩
        · rcases hmem with ⟨h1, h2⟩ | h1
          · exact Or.inl ⟨by simp [h1], h2⟩
          · injection h1 with h1
            exact Or.inl ⟨by simp [h1], by rw [← h1]; exact hc⟩
        · intro g hg hgc
          rcases List.mem_cons.mp hg with hg | hg
          · rw [hg]; exact hre
          · exact hmin g hg hgc
      | some o =>
        simp only [selectOldestAux, if_pos hc] at hb
        by_cases hlt : e.atime < o.atime
        · rw [if_pos hlt] at hb
          obtain ⟨hmem, hmin, hseed⟩ := ih (some e) r hb
          have hre : r.atime ≤ e.atime := hseed e rfl
          refine ⟨?_, ?_, ?_⟩
          · rcases hmem with ⟨h1, h2⟩ | h1
            · exact Or.inl ⟨by simp [h1], h2⟩
            · injection h1 with h1
              exact Or.inl ⟨by simp [h1], by rw [← h1]; exact hc⟩
          · intro g hg hgc
            rcases List.mem_cons.mp hg with hg | hg
            · rw [hg]; exact hre
            · exact hmin g hg hgc
          · intro o' ho'
            injection ho' with ho'
            rw [← ho']
            exact le_of_lt (lt_of_le_of_lt hre hlt)
        · rw [if_neg hlt] at hb
          obtain ⟨hmem, hmin, hseed⟩ := ih (some o) r hb
          have hro : r.atime ≤ o.atime := hseed o rfl
          have hoe : o.atime ≤ e.atime := le_of_not_lt hlt
          refine ⟨?_, ?_, ?_⟩
          · rcases hmem with ⟨h1, h2⟩ | h1
            · exact Or.inl ⟨by simp [h1], h2⟩
            · exact Or.inr h1
          · intro g hg hgc
            rcases List.mem_cons.mp hg with hg | hg
            · rw [hg]; exact le_trans hro hoe
            · exact hmin g hg hgc
          · intro o' ho'
            injection ho' with ho'
            rw [← ho']
            exact hro
    · simp only [selectOldestAux, hc, if_false] at hb
      obtain ⟨hmem, hmin, hseed⟩ := ih best r hb
      refine ⟨?_, ?_, hseed⟩
      · rcases hmem with ⟨h1, h2⟩ | h1
        · exact Or.inl ⟨by simp [h1], h2⟩
        · exact Or.inr h1
      · intro g hg hgc
        rcases List.mem_cons.mp hg with hg | hg
        · rw [hg] at hgc
          rw [hgc] at hc
          cases hc rfl
        · exact hmin g hg hgc

/-- C4, confirmed: `evictOne` walks the cache root skipping directories and
errored entries; when no regular file exists it reports nothing to evict
with no error and leaves the tree unchanged; otherwise it removes a regular
file of minimal access time and returns `(true, its size, nil)`; and a file
with a strictly oldest atime is always the one selected (on ties any
minimal choice is permitted, and the scan keeps the first). -/
theorem evictOne_spec (es : List WalkEntry) :
    ((∀ e ∈ es, isEvictCandidate e = false) → evictOneModel es = ((false, 0, none), es)) ∧
    ((∃ e ∈ es, isEvictCandidate e = true) →
      ∃ f, f ∈ es ∧ isEvictCandidate f = true ∧
        (∀ g ∈ es, isEvictCandidate g = true → f.atime ≤ g.atime) ∧
        evictOneModel es = ((true, f.size, none), es.erase f)) ∧
    (∀ f, f ∈ es → isEvictCandidate f = true →
      (∀ g ∈ es, isEvictCandidate g = true → g ≠ f → f.atime < g.atime) →
      evictOneModel es = ((true, f.size, none), es.erase f)) := by
  refine ⟨?_, ?_, ?_⟩
  · intro h
    simp [evictOneModel, selectOldest, selectOldestAux_skip es h none]
  · rintro ⟨e, he, hec⟩
    cases hsel : selectOldest es with
    | none =>
      obtain ⟨-, hall⟩ := selectOldestAux_none es none hsel
      rw [hall e he] at hec
      cases hec
    | some r =>
      obtain ⟨hmem, hmin, -⟩ := selectOldestAux_min es none r hsel
      rcases hmem with ⟨h1, h2⟩ | h1
      · exact ⟨r, h1, h2, hmin, by simp [evictOneModel, hsel]⟩
      · cases h1
  · intro f hf hfc hstrict
    cases hsel : selectOldest es with
    | none =>
      obtain ⟨-, hall⟩ := selectOldestAux_none es none hsel
      rw [hall f hf] at hfc
      cases hfc
    | some r =>
      obtain ⟨hmem, hmin, -⟩ := selectOldestAux_min es none r hsel
      rcases hmem with ⟨h1, h2⟩ | h1
      · have hrf : r = f := by
          by_contra hne
          have h3 := hstrict r h1 h2 hne
          have h4 := hmin f hf hfc
          omega
        rw [hrf] at hsel
        simp [evictOneModel, hsel]
      · cases h1

/-- C4, witness: a tree with two regular files and one directory; the file
with the strictly oldest atime is evicted. -/
theorem evictOne_spec_witness :
    evictOneModel [⟨"a", 1, 5, false, false⟩, ⟨"b", 2, 3, false, false⟩,
        ⟨"c", 9, 3, true, false⟩] =
      ((true, (⟨"b", 2, 3, false, false⟩ : WalkEntry).size, none),
        [⟨"a", 1, 5, false, false⟩, ⟨"b", 2, 3, false, false⟩,
          (⟨"c", 9, 3, true, false⟩ : WalkEntry)].erase ⟨"b", 2, 3, false, false⟩) :=
  (evictOne_spec _).2.2 ⟨"b", 2, 3, false, false⟩ (by simp) rfl
    (by
      intro g hg hgc hne
      fin_cases hg
      · simp
      · cases hne rfl
      · cases hgc)

/-- Helper: `set` at one index leaves other indices unchanged. -/
theorem list_get?_set_ne {α : Type} (l : List α) (i j : Nat) (a : α) (h : i ≠ j) :
    (l.set i a).get? j = l.get? j := by
  induction l generalizing i j with
  | nil => rfl
  | cons x l ih =>
    cases i with
    | zero =>
      cases j with
      | zero => cases h rfl
      | succ j => rfl
    | succ i =>
      cases j with
      | zero => rfl
      | succ j => exact ih i j (fun hh => h (by rw [hh]))

/-- Helper: reading the updated index after `set` yields the new value. -/
theorem set_get?_same {α : Type} (l : List α) (i : Nat) (v p : α)
    (h : (l.set i v).get? i = some p) : p = v := by
  induction l generalizing i with
  | nil => cases h
  | cons x l ih =>
    cases i with
    | zero => injection h with h; exact h.symm
    | succ i => exact ih i h

/-- Helper: case split for reading any index of a `set` result. -/
theorem get?_of_set {α : Type} (l : List α) (t i : Nat) (v p : α)
    (h : (l.set t v).get? i = some p) :
    (i = t ∧ p = v) ∨ (i ≠ t ∧ l.get? i = some p) := by
  by_cases hit : i = t
  · subst hit
    exact Or.inl ⟨rfl, set_get?_same l i v p h⟩
  · refine Or.inr ⟨hit, ?_⟩
    rw [← list_get?_set_ne l t i v (fun hh => hit hh.symm)]
    exact h

/-- Helper: `get?` commutes with `map`. -/
theorem list_get?_map {α β : Type} (f : α → β) (l : List α) (i : Nat) :
    (l.map f).get? i = (l.get? i).map f := by
  induction l generalizing i with
  | nil => rfl
  | cons x l ih =>
    cases i with
    | zero => rfl
    | succ i => exact ih i

/-- Helper: every element of `replicate` is the replicated value. -/
theorem list_get?_replicate {α : Type} (a : α) (n i : Nat) (p : α)
    (h : (List.replicate n a).get? i = some p) : p = a := by
  induction n generalizing i with
  | zero => cases h
  | succ n ih =>
    cases i with
    | zero => injection h with h; exact h.symm
    | succ i => exact ih i h

/-- Helper: moving one thread to a pc that is outside the critical section
and is neither `waiting` nor `releasing` preserves the invariant. -/
theorem SfInv_set_plain (s : SfState) (t : Nat) (v : ThreadPC) (hinv : SfInv s)
    (hv1 : inSection v = false) (hv2 : v ≠ ThreadPC.waiting) (hv3 : v ≠ ThreadPC.releasing) :
    SfInv { s with pcs := s.pcs.set t v } := by
  obtain ⟨hA, hB, hC, hD⟩ := hinv
  refine ⟨?_, ?_, ?_, ?_⟩
  · intro i j pi pj hi hj hsi hsj
    rcases get?_of_set s.pcs t i v pi hi with ⟨-, hpv⟩ | ⟨-, hi'⟩
    · rw [hpv] at hsi; rw [hsi] at hv1; cases hv1
    · rcases get?_of_set s.pcs t j v pj hj with ⟨-, hpv⟩ | ⟨-, hj'⟩
      · rw [hpv] at hsj; rw [hsj] at hv1; cases hv1
      · exact hA i j pi pj hi' hj' hsi hsj
  · intro hf i p hi
    rcases get?_of_set s.pcs t i v p hi with ⟨-, hpv⟩ | ⟨-, hi'⟩
    · rw [hpv]; exact hv1
    · exact hB hf i p hi'
  · intro i hi
    rcases get?_of_set s.pcs t i v ThreadPC.waiting hi with ⟨-, hpv⟩ | ⟨-, hi'⟩
    · cases hv2 hpv.symm
    · exact hC i hi'
  · intro i hi
    rcases get?_of_set s.pcs t i v ThreadPC.releasing hi with ⟨-, hpv⟩ | ⟨-, hi'⟩
    · cases hv3 hpv.symm
    · exact hD i hi'

/-- Helper: one protocol step preserves the singleflight invariant. -/
theorem applyAct_inv (s s1 : SfState) (a : SfAct) (hinv : SfInv s)
    (h : applyAct s a = some s1) : SfInv s1 := by
  obtain ⟨hA, hB, hC, hD⟩ := hinv
  cases a with
  | lookup t =>
    simp only [applyAct] at h
    split at h
    case _ hpt =>
      split at h <;> injection h with h <;> subst h
      · exact SfInv_set_plain s t ThreadPC.finished ⟨hA, hB, hC, hD⟩ rfl
          (by intro hh; cases hh) (by intro hh; cases hh)
      · exact SfInv_set_plain s t ThreadPC.tryClaim ⟨hA, hB, hC, hD⟩ rfl
          (by intro hh; cases hh) (by intro hh; cases hh)
    case _ => exact Option.noConfusion h
  | claim t =>
    simp only [applyAct] at h
    split at h
    case _ hpt =>
      split at h <;> injection h with h <;> subst h
      case isTrue hinfl =>
        refine ⟨?_, ?_, ?_, ?_⟩
        · intro i j pi pj hi hj hsi hsj
          rcases get?_of_set s.pcs t i ThreadPC.waiting pi hi with ⟨-, hpv⟩ | ⟨-, hi'⟩
          · rw [hpv] at hsi; cases hsi
          · rcases get?_of_set s.pcs t j ThreadPC.waiting pj hj with ⟨-, hpv⟩ | ⟨-, hj'⟩
            · rw [hpv] at hsj; cases hsj
            · exact hA i j pi pj hi' hj' hsi hsj
        · intro hf
          cases (show s.inflight = false from hf).symm.trans hinfl
        · intro i hi
          exact hinfl
        · intro i hi
          rcases get?_of_set s.pcs t i ThreadPC.waiting ThreadPC.releasing hi with
            ⟨-, hpv⟩ | ⟨-, hi'⟩
          · cases hpv
          · exact hD i hi'
      case isFalse hinfl =>
        have hinfl' : s.inflight = false := by
          cases hsi : s.inflight with
          | false => rfl
          | true => cases hinfl hsi
        refine ⟨?_, ?_, ?_, ?_⟩
        · intro i j pi pj hi hj hsi hsj
          rcases get?_of_set s.pcs t i ThreadPC.downloading pi hi with ⟨hit, -⟩ | ⟨-, hi'⟩
          · rcases get?_of_set s.pcs t j ThreadPC.downloading pj hj with ⟨hjt, -⟩ | ⟨-, hj'⟩
            · rw [hit, hjt]
            · rw [hB hinfl' j pj hj'] at hsj; cases hsj
          · rw [hB hinfl' i pi hi'] at hsi; cases hsi
        · intro hf; cases hf
        · intro i hi; rfl
        · intro i hi
          rcases get?_of_set s.pcs t i ThreadPC.downloading ThreadPC.releasing hi with
            ⟨-, hpv⟩ | ⟨-, hi'⟩
          · cases hpv
          · exact hD i hi'
    case _ => exact Option.noConfusion h
  | fetch t =>
    simp only [applyAct] at h
    split at h
    case _ hpt =>
      injection h with h; subst h
      refine ⟨?_, ?_, ?_, ?_⟩
      · intro i j pi pj hi hj hsi hsj
        rcases get?_of_set s.pcs t i ThreadPC.writing pi hi with ⟨hit, -⟩ | ⟨hit, hi'⟩
        · rcases get?_of_set s.pcs t j ThreadPC.writing pj hj with ⟨hjt, -⟩ | ⟨hjt, hj'⟩
          · rw [hit, hjt]
          · cases hjt (hA j t pj ThreadPC.downloading hj' hpt hsj rfl)
        · cases hit (hA i t pi ThreadPC.downloading hi' hpt hsi rfl)
      · intro hf
        cases hB (show s.inflight = false from hf) t ThreadPC.downloading hpt
      · intro i hi
        rcases get?_of_set s.pcs t i ThreadPC.writing ThreadPC.waiting hi with
          ⟨-, hpv⟩ | ⟨-, hi'⟩
        · cases hpv
        · exact hC i hi'
      · intro i hi
        rcases get?_of_set s.pcs t i ThreadPC.writing ThreadPC.releasing hi with
          ⟨-, hpv⟩ | ⟨-, hi'⟩
        · cases hpv
        · exact hD i hi'
    case _ => exact Option.noConfusion h
  | store t =>
    simp only [applyAct] at h
    split at h
    case _ hpt =>
      injection h with h; subst h
      refine ⟨?_, ?_, ?_, ?_⟩
      · intro i j pi pj hi hj hsi hsj
        rcases get?_of_set s.pcs t i ThreadPC.releasing pi hi with ⟨hit, -⟩ | ⟨hit, hi'⟩
        · rcases get?_of_set s.pcs t j ThreadPC.releasing pj hj with ⟨hjt, -⟩ | ⟨hjt, hj'⟩
          · rw [hit, hjt]
          · cases hjt (hA j t pj ThreadPC.writing hj' hpt hsj rfl)
        · cases hit (hA i t pi ThreadPC.writing hi' hpt hsi rfl)
      · intro hf
        cases hB (show s.inflight = false from hf) t ThreadPC.writing hpt
      · intro i hi
        rcases get?_of_set s.pcs t i ThreadPC.releasing ThreadPC.waiting hi with
          ⟨-, hpv⟩ | ⟨-, hi'⟩
        · cases hpv
        · exact hC i hi'
      · intro i hi; rfl
    case _ => exact Option.noConfusion h
  | releaseSlot t =>
    simp only [applyAct] at h
    split at h
    case _ hpt =>
      injection h with h; subst h
      have hmap : ∀ i p, ((s.pcs.set t ThreadPC.finished).map wakeWaiter).get? i = some p →
          ∃ q, (s.pcs.set t ThreadPC.finished).get? i = some q ∧ p = wakeWaiter q := by
        intro i p hi
        rw [list_get?_map] at hi
        cases hq : (s.pcs.set t ThreadPC.finished).get? i with
        | none => rw [hq] at hi; cases hi
        | some q =>
          rw [hq] at hi
          injection hi with hi
          exact ⟨q, rfl, hi.symm⟩
      have hnosec : ∀ i p, ((s.pcs.set t ThreadPC.finished).map wakeWaiter).get? i = some p →
          inSection p = false := by
        intro i p hi
        obtain ⟨q, hq, hpq⟩ := hmap i p hi
        rcases get?_of_set s.pcs t i ThreadPC.finished q hq with ⟨-, hqv⟩ | ⟨hit, hi'⟩
        · rw [hpq, hqv]; rfl
        · by_cases hw : q = ThreadPC.waiting
          · rw [hpq, hw]; rfl
          · have hwq : wakeWaiter q = q := by simp [wakeWaiter, hw]
            rw [hpq, hwq]
            cases hq2 : inSection q with
            | false => rfl
            | true => cases hit (hA i t q ThreadPC.releasing hi' hpt hq2 rfl)
      refine ⟨?_, ?_, ?_, ?_⟩
      · intro i j pi pj hi hj hsi hsj
        rw [hnosec i pi hi] at hsi
        cases hsi
      · intro hf i p hi
        exact hnosec i p hi
      · intro i hi
        obtain ⟨q, hq, hpq⟩ := hmap i ThreadPC.waiting hi
        rcases get?_of_set s.pcs t i ThreadPC.finished q hq with ⟨-, hqv⟩ | ⟨-, hi'⟩
        · rw [hqv] at hpq; cases hpq
        · by_cases hw : q = ThreadPC.waiting
          · rw [hw] at hpq; cases hpq
          · have hwq : wakeWaiter q = q := by simp [wakeWaiter, hw]
            rw [hwq] at hpq
            cases hw hpq.symm
      · intro i hi
        exact hD t hpt
    case _ => exact Option.noConfusion h

/-- Helper: running a list of actions preserves the invariant. -/
theorem runActs_inv (acts : List SfAct) (s0 s : SfState) (hinv : SfInv s0)
    (h : runActs s0 acts = some s) : SfInv s := by
  induction acts generalizing s0 with
  | nil =>
    simp only [runActs] at h
    injection h with h
    rw [← h]
    exact hinv
  | cons a acts ih =>
    simp only [runActs] at h
    cases ha : applyAct s0 a with
    | none => rw [ha] at h; cases h
    | some s1 =>
      rw [ha] at h
      exact ih s1 (applyAct_inv s0 s1 a hinv ha) h

/-- Helper: the initial state satisfies the invariant. -/
theorem initSf_inv (n : Nat) : SfInv (initSf n) := by
  refine ⟨?_, ?_, ?_, ?_⟩
  · intro i j pi pj hi hj hsi hsj
    rw [list_get?_replicate ThreadPC.start n i pi hi] at hsi
    cases hsi
  · intro hf i p hi
    rw [list_get?_replicate ThreadPC.start n i p hi]
    rfl
  · intro i hi
    cases list_get?_replicate ThreadPC.start n i ThreadPC.waiting hi
  · intro i hi
    cases list_get?_replicate ThreadPC.start n i ThreadPC.releasing hi

/-- C3, counterexample: two concurrent GETs for an uncached URL can both
reach the upstream.  In this complete schedule both threads observe a miss
before either claims the slot; thread 0 claims, downloads, writes the entry
and releases; thread 1, which never waits on the latch, then finds the
`inflight` map empty, claims, and downloads again.  Both threads finish and
the upstream has received 2 requests, refuting "exactly one request" and
"the other N-1 callers wait on the per-key latch". -/
theorem singleflight_counterexample :
    runActs (initSf 2) [SfAct.lookup 0, SfAct.lookup 1, SfAct.claim 0, SfAct.fetch 0,
      SfAct.store 0, SfAct.releaseSlot 0, SfAct.claim 1, SfAct.fetch 1, SfAct.store 1,
      SfAct.releaseSlot 1] =
      some ⟨[ThreadPC.finished, ThreadPC.finished], true, false, 2⟩ ∧
    (2 : Nat) ≠ 1 := by
  exact ⟨rfl, by norm_num⟩

/-- C3, amended: in every state reachable from N concurrent GETs for an
uncached URL, at most one thread is between claiming the inflight slot and
releasing it (so at most one upstream fetch is in flight at a time); when
the downloader releases the slot, the slot is removed and the cache entry
has already been written before any waiter resumes, every waiter being sent
back to retry its lookup; the written entry persists under all further
steps; and a retry lookup against the written entry is a hit.  Exactly one
upstream request is not guaranteed: a caller whose miss precedes the
downloader's completion but whose claim follows it fetches again. -/
theorem singleflight_amended (n : Nat) (acts : List SfAct) (s : SfState)
    (h : runActs (initSf n) acts = some s) :
    (∀ i j pi pj, s.pcs.get? i = some pi → s.pcs.get? j = some pj →
      inSection pi = true → inSection pj = true → i = j) ∧
    (∀ t s', applyAct s (SfAct.releaseSlot t) = some s' →
      s'.inflight = false ∧ s'.cacheFull = true ∧
      (∀ u, s.pcs.get? u = some ThreadPC.waiting →
        s'.pcs.get? u = some ThreadPC.start)) ∧
    (∀ a s', applyAct s a = some s' → s.cacheFull = true → s'.cacheFull = true) ∧
    (∀ u, s.pcs.get? u = some ThreadPC.start → s.cacheFull = true →
      applyAct s (SfAct.lookup u) = some { s with pcs := s.pcs.set u ThreadPC.finished }) := by
  obtain ⟨hA, hB, hC, hD⟩ := runActs_inv acts (initSf n) s (initSf_inv n) h
  refine ⟨hA, ?_, ?_, ?_⟩
  · intro t s' hrel
    simp only [applyAct] at hrel
    cases hpt : s.pcs.get? t with
    | none => rw [hpt] at hrel; cases hrel
    | some p =>
      rw [hpt] at hrel
      cases p <;> try exact Option.noConfusion hrel
      injection hrel with hrel
      subst hrel
      refine ⟨rfl, hD t hpt, ?_⟩
      intro u hu
      have hut : u ≠ t := by
        intro hut
        rw [hut, hpt] at hu
        cases hu
      rw [show ((s.pcs.set t ThreadPC.finished).map wakeWaiter).get? u
          = ((s.pcs.set t ThreadPC.finished).get? u).map wakeWaiter from
          list_get?_map wakeWaiter (s.pcs.set t ThreadPC.finished) u]
      rw [list_get?_set_ne s.pcs t u ThreadPC.finished (fun hh => hut hh.symm)]
      rw [hu]
      rfl
  · intro a s' ha hcf
    cases a with
    | lookup t =>
      simp only [applyAct] at ha
      cases hpt : s.pcs.get? t with
      | none => rw [hpt] at ha; cases ha
      | some p =>
        rw [hpt] at ha
        cases p <;> try exact Option.noConfusion ha
        rw [if_pos hcf] at ha
        injection ha with ha
        rw [← ha]
        exact hcf
    | claim t =>
      simp only [applyAct] at ha
      cases hpt : s.pcs.get? t with
      | none => rw [hpt] at ha; cases ha
      | some p =>
        rw [hpt] at ha
        cases p <;> try exact Option.noConfusion ha
        cases hsi : s.inflight with
        | true => rw [hsi] at ha; rw [if_pos rfl] at ha; injection ha with ha; rw [← ha]; exact hcf
        | false =>
          rw [hsi] at ha
          simp only [Bool.false_eq_true, if_false] at ha
          injection ha with ha
          rw [← ha]
          exact hcf
    | fetch t =>
      simp only [applyAct] at ha
      cases hpt : s.pcs.get? t with
      | none => rw [hpt] at ha; cases ha
      | some p =>
        rw [hpt] at ha
        cases p <;> try exact Option.noConfusion ha
        injection ha with ha
        rw [← ha]
        exact hcf
    | store t =>
      simp only [applyAct] at ha
      cases hpt : s.pcs.get? t with
      | none => rw [hpt] at ha; cases ha
      | some p =>
        rw [hpt] at ha
        cases p <;> try exact Option.noConfusion ha
        injection ha with ha
        rw [← ha]
    | releaseSlot t =>
      simp only [applyAct] at ha
      cases hpt : s.pcs.get? t with
      | none => rw [hpt] at ha; cases ha
      | some p =>
        rw [hpt] at ha
        cases p <;> try exact Option.noConfusion ha
        injection ha with ha
        rw [← ha]
        exact hcf
  · intro u hu hcf
    simp only [applyAct, hu, if_pos hcf]

/-- C3, witness for the amended theorem: the empty schedule on one thread
reaches the initial state, for which all four conjuncts are established by
the theorem. -/
theorem singleflight_amended_witness :
    (∀ i j pi pj, (initSf 1).pcs.get? i = some pi → (initSf 1).pcs.get? j = some pj →
      inSection pi = true → inSection pj = true → i = j) ∧
    (∀ t s', applyAct (initSf 1) (SfAct.releaseSlot t) = some s' →
      s'.inflight = false ∧ s'.cacheFull = true ∧
      (∀ u, (initSf 1).pcs.get? u = some ThreadPC.waiting →
        s'.pcs.get? u = some ThreadPC.start)) ∧
    (∀ a s', applyAct (initSf 1) a = some s' →
      (initSf 1).cacheFull = true → s'.cacheFull = true) ∧
    (∀ u, (initSf 1).pcs.get? u = some ThreadPC.start → (initSf 1).cacheFull = true →
      applyAct (initSf 1) (SfAct.lookup u) =
        some { initSf 1 with pcs := (initSf 1).pcs.set u ThreadPC.finished }) :=
  singleflight_amended 1 [] (initSf 1) rfl

/-- Helper: facts about decimal digit characters. -/
theorem digitChar_facts (d : Nat) (hd : d < 10) :
    Char.toUpper (digitChar d) = digitChar d ∧
    digitVal? (digitChar d) = some d ∧
    digitChar d ≠ '.' ∧ digitChar d ≠ '-' ∧ digitChar d ≠ '+' ∧
    isSpaceChar (digitChar d) = false ∧
    digitChar d ≠ 'B' ∧ digitChar d ≠ 'G' ∧ digitChar d ≠ 'M' ∧ digitChar d ≠ 'K' := by
  interval_cases d <;> exact ⟨by decide, by decide, by decide, by decide, by decide,
    by decide, by decide, by decide, by decide, by decide⟩

/-- Helper: `dropWhile` is the identity when no element satisfies the
predicate. -/
theorem dropWhile_no (p : Char → Bool) (cs : List Char) (h : ∀ c ∈ cs, p c = false) :
    cs.dropWhile p = cs := by
  cases cs with
  | nil => rfl
  | cons c cs => simp [List.dropWhile_cons, h c (by simp)]

/-- Helper: trimming a string without whitespace is the identity. -/
theorem trimChars_no (cs : List Char) (h : ∀ c ∈ cs, isSpaceChar c = false) :
    trimChars cs = cs := by
  unfold trimChars
  rw [dropWhile_no isSpaceChar cs h,
    dropWhile_no isSpaceChar cs.reverse (fun c hc => h c (List.mem_reverse.mp hc)),
    List.reverse_reverse]

/-- Helper: a rendered literal contains no whitespace. -/
theorem render_no_space (neg : Bool) (ip fp : List Nat) (u : SizeUnit)
    (hip : ∀ d ∈ ip, d < 10) (hfp : ∀ d ∈ fp, d < 10) :
    ∀ c ∈ renderMagnitude neg ip fp ++ u.chars, isSpaceChar c = false := by
  intro c hc
  rw [List.mem_append] at hc
  rcases hc with hc | hc
  · unfold renderMagnitude at hc
    rw [List.mem_append] at hc
    rcases hc with hc | hc
    · rw [List.mem_append] at hc
      rcases hc with hc | hc
      · cases neg with
        | false => cases hc
        | true =>
          simp only [if_pos] at hc
          rw [List.mem_singleton] at hc
          rw [hc]
          rfl
      · obtain ⟨d, hd, hdc⟩ := List.mem_map.mp hc
        rw [← hdc]
        exact (digitChar_facts d (hip d hd)).2.2.2.2.2.1
    · rw [List.mem_cons] at hc
      rcases hc with hc | hc
      · rw [hc]; rfl
      · obtain ⟨d, hd, hdc⟩ := List.mem_map.mp hc
        rw [← hdc]
        exact (digitChar_facts d (hfp d hd)).2.2.2.2.2.1
  · cases u <;> simp only [SizeUnit.chars] at hc <;> fin_cases hc <;> rfl

/-- Helper: upper-casing a rendered literal is the identity. -/
theorem map_toUpper_render (neg : Bool) (ip fp : List Nat) (u : SizeUnit)
    (hip : ∀ d ∈ ip, d < 10) (hfp : ∀ d ∈ fp, d < 10) :
    (renderMagnitude neg ip fp ++ u.chars).map Char.toUpper
      = renderMagnitude neg ip fp ++ u.chars := by
  rw [List.map_append]
  have hdig : ∀ ds : List Nat, (∀ d ∈ ds, d < 10) →
      (ds.map digitChar).map Char.toUpper = ds.map digitChar := by
    intro ds hds
    rw [List.map_map]
    apply List.map_congr_left
    intro d hd
    exact (digitChar_facts d (hds d hd)).1
  have hmag : (renderMagnitude neg ip fp).map Char.toUpper = renderMagnitude neg ip fp := by
    unfold renderMagnitude
    rw [List.map_append, List.map_append, List.map_cons]
    rw [hdig ip hip, hdig fp hfp]
    cases neg <;> rfl
  rw [hmag]
  cases u <;> rfl

/-- Helper: the suffix dispatch on a literal whose body ends in a digit. -/
theorem splitUnit_render (body : List Char) (d : Nat) (hd : d < 10) :
    splitUnit (body ++ [digitChar d]) = (1, body ++ [digitChar d]) ∧
    splitUnit ((body ++ [digitChar d]) ++ ['B']) = (1, body ++ [digitChar d]) ∧
    splitUnit ((body ++ [digitChar d]) ++ ['K', 'B']) = (2 ^ 10, body ++ [digitChar d]) ∧
    splitUnit ((body ++ [digitChar d]) ++ ['M', 'B']) = (2 ^ 20, body ++ [digitChar d]) ∧
    splitUnit ((body ++ [digitChar d]) ++ ['G', 'B']) = (2 ^ 30, body ++ [digitChar d]) := by
  obtain ⟨-, -, -, -, -, -, hB, hG, hM, hK⟩ := digitChar_facts d hd
  refine ⟨?_, ?_, ?_, ?_, ?_⟩
  · cases hbr : body.reverse with
    | nil =>
      have hbody : body = [] := by
        have h2 := congrArg List.reverse hbr
        simpa using h2
      subst hbody
      simp [splitUnit, hB]
    | cons g r =>
      simp [splitUnit, List.reverse_append, hbr, hB]
  · simp [splitUnit, List.reverse_append, hB, hG, hM, hK]
  · simp [splitUnit, List.reverse_append, hB, hG, hM, hK]
  · simp [splitUnit, List.reverse_append, hB, hG, hM, hK]
  · simp [splitUnit, List.reverse_append, hB, hG, hM, hK]

/-- Helper: sign handling of the decimal parser on a rendered magnitude. -/
theorem parseSign_render (neg : Bool) (ip fp : List Nat) (hip : ∀ d ∈ ip, d < 10)
    (hne : ip ≠ []) :
    parseSign (renderMagnitude neg ip fp)
      = (neg, ip.map digitChar ++ '.' :: fp.map digitChar) := by
  cases neg with
  | true =>
    unfold renderMagnitude
    simp [parseSign]
  | false =>
    cases ip with
    | nil => cases hne rfl
    | cons d ip =>
      have hd : d < 10 := hip d (by simp)
      obtain ⟨-, -, -, hminus, hplus, -⟩ := digitChar_facts d hd
      unfold renderMagnitude
      simp [parseSign, hminus, hplus]

/-- Helper: the first dot splits a rendered magnitude into its parts. -/
theorem splitDot_render (ip fp : List Nat) (hip : ∀ d ∈ ip, d < 10) :
    splitDot (ip.map digitChar ++ '.' :: fp.map digitChar)
      = (ip.map digitChar, some (fp.map digitChar)) := by
  induction ip with
  | nil => rfl
  | cons d ip ih =>
    have hd : d < 10 := hip d (by simp)
    have hne : digitChar d ≠ '.' := (digitChar_facts d hd).2.2.1
    simp only [List.map_cons, List.cons_append, splitDot, if_neg hne, List.append_eq]
    rw [ih (fun x hx => hip x (by simp [hx]))]

/-- Helper: the digit-string evaluator on rendered digits. -/
theorem digitsValAux_render (ds : List Nat) (hds : ∀ d ∈ ds, d < 10) :
    ∀ acc, digitsValAux acc (ds.map digitChar)
      = some (ds.foldl (fun a d => 10 * a + d) acc) := by
  induction ds with
  | nil => intro acc; rfl
  | cons d ds ih =>
    intro acc
    have hv : digitVal? (digitChar d) = some d := (digitChar_facts d (hds d (by simp))).2.1
    simp only [List.map_cons, digitsValAux, hv, List.foldl_cons]
    exact ih (fun x hx => hds x (by simp [hx])) (10 * acc + d)

/-- Helper: `digitsVal?` computes the value of rendered digits. -/
theorem digitsVal?_render (ds : List Nat) (hds : ∀ d ∈ ds, d < 10) :
    digitsVal? (ds.map digitChar) = some (digitsToNat ds) :=
  digitsValAux_render ds hds 0

/-- Helper: folding from a seed shifts the seed by a power of ten. -/
theorem digitsToNat_shift (ds : List Nat) :
    ∀ a, ds.foldl (fun x d => 10 * x + d) a = a * 10 ^ ds.length + digitsToNat ds := by
  induction ds with
  | nil => intro a; simp [digitsToNat]
  | cons d ds ih =>
    intro a
    have hval : digitsToNat (d :: ds) = d * 10 ^ ds.length + digitsToNat ds := by
      have h0 := ih d
      simpa [digitsToNat] using h0
    simp only [List.foldl_cons, List.length_cons]
    rw [ih (10 * a + d), hval]
    ring

/-- Helper: digit-string concatenation is positional. -/
theorem digitsToNat_append (ip fp : List Nat) :
    digitsToNat (ip ++ fp) = digitsToNat ip * 10 ^ fp.length + digitsToNat fp := by
  unfold digitsToNat
  rw [List.foldl_append]
  exact digitsToNat_shift fp _

/-- Helper: the decimal parser yields the exact rational value of a
rendered magnitude. -/
theorem parseDecChars_render (neg : Bool) (ip fp : List Nat)
    (hip : ∀ d ∈ ip, d < 10) (hfp : ∀ d ∈ fp, d < 10) (hipne : ip ≠ []) :
    parseDecChars (renderMagnitude neg ip fp) = some (magnitudeRat neg ip fp) := by
  have hempty : (ip.map digitChar).isEmpty = false := by
    cases ip with
    | nil => cases hipne rfl
    | cons d ip => rfl
  simp only [parseDecChars, parseSign_render neg ip fp hip hipne,
    splitDot_render ip fp hip, digitsVal?_render ip hip, digitsVal?_render fp hfp,
    hempty, Bool.false_and, Bool.false_eq_true, if_false, List.length_map]
  rw [magnitudeRat, digitsToNat_append]

/-- Helper: truncation of a non-positive rational is non-positive. -/
theorem truncInt_nonpos (q : Rat) (h : q ≤ 0) : truncInt q ≤ 0 := by
  unfold truncInt
  by_cases hq : q < 0
  · rw [if_pos hq]
    have h2 : (0 : Int) ≤ ⌊-q⌋ := Int.floor_nonneg.mpr (by linarith)
    omega
  · rw [if_neg hq]
    have hq0 : q = 0 := le_antisymm h (le_of_not_lt hq)
    rw [hq0]
    simp

/-- C9, counterexample: the parser truncates instead of rounding, and it
accepts negative magnitudes instead of rejecting them.  `"1.5B"` parses to
1 (the claim requires round(1.5) = 2) and `"-5MB"` parses successfully to
-5242880 (the claim requires an error).  Both magnitudes, 1.5 = 3 * 2^-1
and -5, are exactly representable float64 values with products far inside
the `int64` range, so on these two inputs the exact-rational model computes
the very same values as the Go float64 pipeline. -/
theorem byteSize_counterexample :
    byteSizeUnmarshal "1.5B" = Except.ok 1 ∧
    byteSizeUnmarshal "-5MB" = Except.ok (-5242880) := by
  constructor
  · show Except.ok (truncInt ((1 : Rat) *
      (((1 * 10 ^ 1 + 5 : Nat) : Rat) / ((10 ^ 1 : Nat) : Rat)) * ((1 : Int) : Rat))) = _
    norm_num [truncInt]
  · show Except.ok (truncInt ((-1 : Rat) * ((5 : Nat) : Rat) *
      (((2 : Int) ^ 20 : Int) : Rat))) = _
    norm_num [truncInt]

/-- C9, amended: for every input made of a decimal (possibly fractional,
possibly negative) magnitude followed by an optional unit suffix, whose
magnitude is exactly representable as a finite float64 and whose byte value
lies inside the `int64` range, the parser succeeds and yields the magnitude
times the unit truncated toward zero (the `int64` conversion) - not
rounded; and a negative magnitude is accepted without error, producing a
non-positive byte count - not rejected.  The two hypotheses `IsFloat64`
and the 2^63 bound delimit exactly the inputs on which the exact-rational
embedding coincides with Go's float64 computation (see the discussion at
`parseDecChars` and `byteSizeUnmarshal`); outside it, on magnitudes such as
seventeen nines after the dot, `ParseFloat`'s rounding makes the program
differ from the exact value and this theorem asserts nothing. -/
theorem byteSize_amended (neg : Bool) (ip fp : List Nat) (u : SizeUnit)
    (hip : ∀ d ∈ ip, d < 10) (hfp : ∀ d ∈ fp, d < 10)
    (hipne : ip ≠ []) (hfpne : fp ≠ [])
    (hrep : IsFloat64 (magnitudeRat neg ip fp))
    (hrange : |magnitudeRat neg ip fp * (u.mult : Rat)| < 2 ^ 63) :
    byteSizeUnmarshal (renderInput neg ip fp u) =
      Except.ok (truncInt (magnitudeRat neg ip fp * (u.mult : Rat))) ∧
    (neg = true → ∃ n : Int, byteSizeUnmarshal (renderInput neg ip fp u) = Except.ok n ∧
      n ≤ 0) := by
  obtain ⟨fp', dl, rfl⟩ : ∃ fp' dl, fp = fp' ++ [dl] := by
    rcases List.eq_nil_or_concat fp with hfp0 | ⟨fp', dl, hfp0⟩
    · cases hfpne hfp0
    · exact ⟨fp', dl, by rw [hfp0, List.concat_eq_append]⟩
  have hdl : dl < 10 := hfp dl (by simp)
  have hdecomp : renderMagnitude neg ip (fp' ++ [dl]) =
      ((if neg then ['-'] else []) ++ ip.map digitChar ++ '.' :: fp'.map digitChar)
        ++ [digitChar dl] := by
    unfold renderMagnitude
    simp [List.map_append, List.append_assoc]
  have hsplit := splitUnit_render
    ((if neg then ['-'] else []) ++ ip.map digitChar ++ '.' :: fp'.map digitChar) dl hdl
  have hsp : splitUnit (renderMagnitude neg ip (fp' ++ [dl]) ++ u.chars)
      = ((u.mult : Int), renderMagnitude neg ip (fp' ++ [dl])) := by
    cases u with
    | unitless =>
      rw [show SizeUnit.unitless.chars = ([] : List Char) from rfl, List.append_nil,
        hdecomp, hsplit.1]
      rfl
    | b =>
      rw [show SizeUnit.b.chars = ['B'] from rfl, hdecomp, hsplit.2.1]
      rfl
    | kb =>
      rw [show SizeUnit.kb.chars = ['K', 'B'] from rfl, hdecomp, hsplit.2.2.1]
      rfl
    | mb =>
      rw [show SizeUnit.mb.chars = ['M', 'B'] from rfl, hdecomp, hsplit.2.2.2.1]
      rfl
    | gb =>
      rw [show SizeUnit.gb.chars = ['G', 'B'] from rfl, hdecomp, hsplit.2.2.2.2]
      rfl
  have hdata : (renderInput neg ip (fp' ++ [dl]) u).data
      = renderMagnitude neg ip (fp' ++ [dl]) ++ u.chars := rfl
  have hup := map_toUpper_render neg ip (fp' ++ [dl]) u hip hfp
  have htrim := trimChars_no _ (render_no_space neg ip (fp' ++ [dl]) u hip hfp)
  have hp := parseDecChars_render neg ip (fp' ++ [dl]) hip hfp hipne
  have hmain : byteSizeUnmarshal (renderInput neg ip (fp' ++ [dl]) u) =
      Except.ok (truncInt (magnitudeRat neg ip (fp' ++ [dl]) * (u.mult : Rat))) := by
    simp only [byteSizeUnmarshal, hdata, hup, htrim, hsp, hp]
  refine ⟨hmain, ?_⟩
  intro hneg
  refine ⟨truncInt (magnitudeRat neg ip (fp' ++ [dl]) * (u.mult : Rat)), hmain, ?_⟩
  apply truncInt_nonpos
  have hmag : magnitudeRat neg ip (fp' ++ [dl]) ≤ 0 := by
    unfold magnitudeRat
    rw [hneg]
    simp only [if_pos]
    have hnum : (0 : Rat) ≤ ((digitsToNat (ip ++ (fp' ++ [dl])) : Rat) /
        ((10 ^ (fp' ++ [dl]).length : Nat) : Rat)) := by positivity
    nlinarith
  have hmult : (0 : Rat) ≤ (u.mult : Rat) := by
    cases u <;> norm_num [SizeUnit.mult]
  calc magnitudeRat neg ip (fp' ++ [dl]) * (u.mult : Rat)
      ≤ 0 * (u.mult : Rat) := mul_le_mul_of_nonneg_right hmag hmult
    _ = 0 := by ring

/-- C9, witness for the amended theorem: the literal "-5.0MB" has the
exactly representable magnitude -5 and a byte value inside `int64`, and
parses without error to a non-positive count. -/
theorem byteSize_amended_witness :
    byteSizeUnmarshal (renderInput true [5] [0] SizeUnit.mb) =
      Except.ok (truncInt (magnitudeRat true [5] [0] * (SizeUnit.mb.mult : Rat))) ∧
    (true = true → ∃ n : Int, byteSizeUnmarshal (renderInput true [5] [0] SizeUnit.mb) =
      Except.ok n ∧ n ≤ 0) := by
  have hval : magnitudeRat true [5] [0] = -5 := by
    rw [magnitudeRat, show digitsToNat ([5] ++ [0]) = 50 from rfl]
    norm_num
  refine byteSize_amended true [5] [0] SizeUnit.mb (by simp) (by simp)
    (by simp) (by simp) ⟨-5, 0, by norm_num, by norm_num, by norm_num, ?_⟩ ?_
  · rw [hval]
    norm_num
  · rw [hval]
    have h1 : (-5 : Rat) * ((SizeUnit.mb.mult : Int) : Rat) = -5242880 := by
      norm_num [SizeUnit.mult]
    rw [h1, abs_of_nonpos (by norm_num)]
    norm_num

end Gitmproxy
